import Mathlib

/-!
Verification development for the runtime module compiler / manifest linker
(the "My Workspace" app): the virtual tree model (`FileSystemNode`), the tree
flattener (`buildFs`), the leaf walker (`walk`), the compile/link step
(`compile`) and the orchestrator (`App`), together with a small trace model
of the process-wide toolchain initialization (`initializePromise`).

JavaScript objects are embedded as insertion-ordered association lists:
`{...acc, [k]: v}` keeps an existing key at its original position with the
new value and appends a fresh key at the end (`objInsert`); `Object.entries`
iterates in that stored order; property access is `objLookup`.  The compiler
toolchain (esbuild `transform` followed by a dynamic `import`) is an opaque
parameter `tsImport : String → Except Err Module`; a thrown `CompileError` or
`LoadError` is an `Except.error`.  `dirname(import.meta.url)` is the opaque
parameter `currdir`, and `join` on the plain relative segments used here is
slash-concatenation.
-/

namespace Workspace

/-- JS object spread-update `{...l, [k]: v}`: if `k` is already a key, its
value is replaced in place (the key keeps its original position); otherwise
the binding is appended at the end. -/
def objInsert {α : Type} (k : String) (v : α) : List (String × α) → List (String × α)
  | [] => [(k, v)]
  | (k₀, v₀) :: rest => if k₀ = k then (k, v) :: rest else (k₀, v₀) :: objInsert k v rest

/-- JS property access `l[k]` (`undefined` becomes `none`). -/
def objLookup {α : Type} (k : String) : List (String × α) → Option α
  | [] => none
  | (k₀, v₀) :: rest => if k₀ = k then some v₀ else objLookup k rest

/-- JS `String.prototype.endsWith`, modelled on character lists so that it
evaluates by kernel reduction. -/
def jsEndsWith (s suffix : String) : Bool := suffix.data.isSuffixOf s.data

/-! ### Virtual tree model

Source: `interface File { content: string }`,
`interface Directory { entries: FileSystemNode[] }`,
`interface FileSystemNode { name: string; value: Directory | File }`.
A node is embedded as its `(name, value)` pair; `NodeList` is the array of
nodes (a plain list, kept as a mutual inductive so that recursion over the
tree is structural). -/

mutual

/-- The `Directory | File` union of a node's `value` field. -/
inductive NodeValue : Type where
  | file (content : String) : NodeValue
  | dir (entries : NodeList) : NodeValue

/-- An ordered `FileSystemNode[]` array: each element is a node
`{name, value}`. -/
inductive NodeList : Type where
  | nil : NodeList
  | cons (name : String) (value : NodeValue) (rest : NodeList) : NodeList

end

/-- `isDir` from the source: a node value is a directory exactly when it has
an `entries` array. -/
def isDir : NodeValue → Bool
  | .dir _ => true
  | .file _ => false

/-- Convenience constructor for concrete `NodeList` literals. -/
def nodesOfList : List (String × NodeValue) → NodeList
  | [] => .nil
  | (n, v) :: rest => .cons n v (nodesOfList rest)

/-! ### Flattened tree

Source: `interface FileSystem { [path: string]: string | FileSystem }`,
an insertion-ordered JS object. -/

mutual

/-- The `string | FileSystem` union of flattened-tree values. -/
inductive FsVal : Type where
  | str (content : String) : FsVal
  | fs (entries : FsEntries) : FsVal

/-- The ordered entry list of a `FileSystem` object. -/
inductive FsEntries : Type where
  | nil : FsEntries
  | cons (name : String) (value : FsVal) (rest : FsEntries) : FsEntries

end

/-- Convenience constructor for concrete `FsEntries` literals. -/
def fsOfList : List (String × FsVal) → FsEntries
  | [] => .nil
  | (n, v) :: rest => .cons n v (fsOfList rest)

/-- JS object spread-update on a `FileSystem` object (same semantics as
`objInsert`, at the mutual inductive type). -/
def fsInsert (k : String) (v : FsVal) : FsEntries → FsEntries
  | .nil => .cons k v .nil
  | .cons k₀ v₀ rest => if k₀ = k then .cons k v rest else .cons k₀ v₀ (fsInsert k v rest)

/-- JS property access on a `FileSystem` object. -/
def fsLookup (k : String) : FsEntries → Option FsVal
  | .nil => none
  | .cons k₀ v₀ rest => if k₀ = k then some v₀ else fsLookup k rest

/-! `buildVal`/`buildFs` embed the source
```
const buildFs = (nodes) =>
  nodes.reduce((acc, node) =>
    isDir(node.value)
      ? { ...acc, [node.name]: buildFs(node.value.entries) }
      : { ...acc, [node.name]: node.value.content },
    {});
```
`buildFs` carries the `reduce` accumulator explicitly; the toplevel call is
`buildFs nodes .nil`. -/
mutual

/-- Flatten one node value (see the comment on the block). -/
def buildVal : NodeValue → FsVal
  | .file content => .str content
  | .dir entries => .fs (buildFs entries .nil)

def buildFs : NodeList → FsEntries → FsEntries
  | .nil, acc => acc
  | .cons name v rest, acc => buildFs rest (fsInsert name (buildVal v) acc)

end

/-- `interface TsContent { path: string; content: string }`.  The same record
shape serves for source-map entries `{ path, content }`. -/
structure TsContent : Type where
  path : String
  content : String
deriving DecidableEq, Repr

/-! `walk`/`walkList` embed the source generator
```
function* walk(fs, root = "") {
  if (typeof fs === "string") {
    if (!root.endsWith(".ts") && !root.endsWith(".tsx")) return;
    return yield { path: root, content: fs };
  }
  for (const [name, subdir] of Object.entries(fs)) {
    yield* walk(subdir, `${root === "" ? "" : `${root}/`}${name}`);
  }
}
```
as the finite list of all yielded values: the generator has no hidden state,
so its full output is a pure function of its input (which also captures the
restartable-sequence contract). -/
mutual

def walk : FsVal → String → List TsContent
  | .str content, root =>
    if !(jsEndsWith root ".ts") && !(jsEndsWith root ".tsx") then []
    else [⟨root, content⟩]
  | .fs entries, root => walkList entries root

def walkList : FsEntries → String → List TsContent
  | .nil, _ => []
  | .cons name subdir rest, root =>
    walk subdir (if root = "" then name else root ++ "/" ++ name) ++ walkList rest root

end

/-! All leaves of a flattened tree with their walk paths and no extension
filtering: the spec-level notion of "leaf at any nesting depth", used to state
which leaves the walker's suffix filter drops. -/
mutual

def leavesVal : FsVal → String → List TsContent
  | .str content, root => [⟨root, content⟩]
  | .fs entries, root => leavesList entries root

def leavesList : FsEntries → String → List TsContent
  | .nil, _ => []
  | .cons name subdir rest, root =>
    leavesVal subdir (if root = "" then name else root ++ "/" ++ name) ++ leavesList rest root

end

/-- The walker's recognized-suffix test, read off the two `endsWith` checks
in `walk`. -/
def tsSuffix (p : String) : Bool := jsEndsWith p ".ts" || jsEndsWith p ".tsx"

/-! ### Manifest, compile step and orchestrator -/

/-- The `AppManifest` shape: the fixed `name` (registry namespace) and
`baseUrl` fields plus the per-category block registries (category name ↦
block key ↦ live module). -/
structure AppManifest (Module : Type) : Type where
  name : String
  baseUrl : String
  blocks : List (String × List (String × Module))
deriving DecidableEq

/-- A source map: block key ↦ `{ path, content }`. -/
abbrev SMap := List (String × TsContent)

/-- Block-registry lookup inside a manifest: `manifest[cat][k]`
(a missing category reads as the empty object, as spreading `undefined`
does in JS). -/
def lookupBlock {Module : Type} (m : AppManifest Module) (cat k : String) : Option Module :=
  objLookup k ((objLookup cat m.blocks).getD [])

/-- The block key `` `${manifest.name}/${blockType}/${path}` `` computed by
`compile`. -/
def blockKeyOf (ns bt : String) (t : TsContent) : String :=
  ns ++ "/" ++ bt ++ "/" ++ t.path

/-- The `blockPath = join(currdir, blockType, path)` computed by `compile`
(POSIX join of the three plain segments). -/
def blockPathOf (currdir bt : String) (t : TsContent) : String :=
  currdir ++ "/" ++ bt ++ "/" ++ t.path

section Model

variable {Module Err : Type}

/-- `compile` from the source:
```
const compile = async (blockType, { path, content }, manifest, sourceMap) => {
  await initializePromise;
  const tsModule = await importFromString(content);
  const blockPath = join(currdir, blockType, path);
  const blockKey = `${manifest.name}/${blockType}/${path}`;
  return [{ ...manifest, [blockType]: { ...manifest[blockType], [blockKey]: tsModule } },
          { ...sourceMap, [blockKey]: { path: blockPath, content: content } }];
};
```
`importFromString` (esbuild `transform` + dynamic import of the emitted code)
is the opaque `tsImport`; a rejection of either step is `Except.error`. -/
def compile (tsImport : String → Except Err Module) (currdir : String)
    (blockType : String) (t : TsContent) (manifest : AppManifest Module)
    (sourceMap : SMap) : Except Err (AppManifest Module × SMap) :=
  match tsImport t.content with
  | .error e => .error e
  | .ok tsModule =>
    .ok ⟨{ manifest with
        blocks := objInsert blockType
          (objInsert (blockKeyOf manifest.name blockType t) tsModule
            ((objLookup blockType manifest.blocks).getD []))
          manifest.blocks },
      objInsert (blockKeyOf manifest.name blockType t)
        ⟨blockPathOf currdir blockType t, t.content⟩ sourceMap⟩

/-- The inner `for (const tsContent of walk(blockContentOrFs))` loop of `App`:
fold `compile` over the walked units of one category, aborting on the first
failure. -/
def processUnits (tsImport : String → Except Err Module) (currdir : String)
    (blockType : String) : List TsContent → AppManifest Module × SMap →
    Except Err (AppManifest Module × SMap)
  | [], acc => .ok acc
  | t :: rest, acc =>
    (compile tsImport currdir blockType t acc.1 acc.2).bind
      (processUnits tsImport currdir blockType rest)

/-- The outer `for (const [blockType, blockContentOrFs] of Object.entries(fs))`
loop of `App`. -/
def processEntries (tsImport : String → Except Err Module) (currdir : String) :
    FsEntries → AppManifest Module × SMap → Except Err (AppManifest Module × SMap)
  | .nil, acc => .ok acc
  | .cons blockType sub rest, acc =>
    (processUnits tsImport currdir blockType (walk sub "") acc).bind
      (processEntries tsImport currdir rest)

/-- The value returned by a successful `App` run:
`{ manifest, state: fs, sourceMap }`. -/
structure AppResult (Module : Type) : Type where
  manifest : AppManifest Module
  state : FsEntries
  sourceMap : SMap

/-- `App` from the source:
```
export default async function App({ fileSystem }) {
  const fs = buildFs(fileSystem);
  let appManifest = manifest;
  let appSourceMap = buildSourceMap(appManifest);
  for (const [blockType, blockContentOrFs] of Object.entries(fs)) {
    for (const tsContent of walk(blockContentOrFs)) {
      const [newManifest, newSourceMap] =
        await compile(blockType, tsContent, appManifest, appSourceMap);
      appManifest = newManifest;
      appSourceMap = newSourceMap;
    }
  }
  return { manifest: appManifest, state: fs, sourceMap: appSourceMap };
}
```
The statically generated base manifest is the parameter `manifest0`; the
external `buildSourceMap` helper (from the hosting library, not this
repository) is the opaque parameter `bsm`. -/
def App (tsImport : String → Except Err Module) (currdir : String)
    (manifest0 : AppManifest Module) (bsm : AppManifest Module → SMap)
    (fileSystem : NodeList) : Except Err (AppResult Module) :=
  let fs := buildFs fileSystem .nil
  (processEntries tsImport currdir fs (manifest0, bsm manifest0)).map
    fun acc => ⟨acc.1, fs, acc.2⟩

/-- Whether an `App` run succeeded (returned a result at all). -/
def appOk : Except Err (AppResult Module) → Bool
  | .ok _ => true
  | .error _ => false

/-- Observe a block key's source-map entry in an `App` run's result. -/
def appSMLookup (k : String) : Except Err (AppResult Module) → Option TsContent
  | .ok r => objLookup k r.sourceMap
  | .error _ => none

/-- Observe a block binding in an `App` run's resulting manifest. -/
def appBlockLookup (cat k : String) : Except Err (AppResult Module) → Option Module
  | .ok r => lookupBlock r.manifest cat k
  | .error _ => none

/-- The pass's source units in processing order: for each top-level category
entry of the flattened tree (in stored order), the category name paired with
each unit the walker emits for that entry's subtree. -/
def passUnits : FsEntries → List (String × TsContent)
  | .nil => []
  | .cons bt sub rest => (walk sub "").map (fun t => (bt, t)) ++ passUnits rest

/-- The same fold as the two nested `App` loops, over the flattened
`(category, unit)` pass list. -/
def processPairs (tsImport : String → Except Err Module) (currdir : String) :
    List (String × TsContent) → AppManifest Module × SMap →
    Except Err (AppManifest Module × SMap)
  | [], acc => .ok acc
  | (bt, t) :: rest, acc =>
    (compile tsImport currdir bt t acc.1 acc.2).bind
      (processPairs tsImport currdir rest)

end Model

/-- The last unit of the pass list (in processing order) whose block key under
namespace `ns` is `k`, together with its category: the binding that
last-writer-wins overwrite semantics retains. -/
def lastWrite (ns k : String) : List (String × TsContent) → Option (String × TsContent)
  | [] => none
  | (bt, t) :: rest =>
    match lastWrite ns k rest with
    | some r => some r
    | none => if blockKeyOf ns bt t = k then some (bt, t) else none

/-- The last unit of the pass list that lives in category `cat` and has block
key `k` under namespace `ns`: the binding retained in `manifest[cat]`. -/
def lastWriteCat (ns cat k : String) : List (String × TsContent) → Option TsContent
  | [] => none
  | (bt, t) :: rest =>
    match lastWriteCat ns cat k rest with
    | some r => some r
    | none => if bt = cat ∧ blockKeyOf ns bt t = k then some t else none

/-- The last node of a node list carrying a given name (the binding that the
flattener's object-update semantics retains for that name). -/
def lastNamed (name : String) : NodeList → Option NodeValue
  | .nil => none
  | .cons n v rest =>
    match lastNamed name rest with
    | some r => some r
    | none => if n = name then some v else none

/-- The value of an `Except`, `none` on error. -/
def exceptOk {ε α : Type} : Except ε α → Option α
  | .ok a => some a
  | .error _ => none

/-! ### Association-list and flattener lemmas -/

theorem objLookup_objInsert {α : Type} (k q : String) (v : α) (l : List (String × α)) :
    objLookup q (objInsert k v l) = if k = q then some v else objLookup q l := by
  induction l with
  | nil => simp [objInsert, objLookup]
  | cons hd tl ih =>
    obtain ⟨k₀, v₀⟩ := hd
    by_cases h : k₀ = k
    · subst h
      simp only [objInsert, if_pos rfl]
      by_cases hq : k₀ = q
      · subst hq; simp [objLookup]
      · simp [objLookup, hq]
    · simp only [objInsert, if_neg h]
      by_cases hq : k₀ = q
      · subst hq
        have hk : ¬ k = k₀ := fun he => h he.symm
        simp [objLookup, hk]
      · simp [objLookup, hq, ih]

theorem fsLookup_fsInsert (k q : String) (v : FsVal) :
    ∀ (l : FsEntries), fsLookup q (fsInsert k v l) = if k = q then some v else fsLookup q l
  | .nil => by simp [fsInsert, fsLookup]
  | .cons k₀ v₀ tl => by
    by_cases h : k₀ = k
    · subst h
      simp only [fsInsert, if_pos rfl]
      by_cases hq : k₀ = q
      · subst hq; simp [fsLookup]
      · simp [fsLookup, hq]
    · simp only [fsInsert, if_neg h]
      by_cases hq : k₀ = q
      · subst hq
        have hk : ¬ k = k₀ := fun he => h he.symm
        simp [fsLookup, hk]
      · simp [fsLookup, hq, fsLookup_fsInsert k q v tl]

theorem fsLookup_buildFs :
    ∀ (ns : NodeList) (acc : FsEntries) (name : String),
      fsLookup name (buildFs ns acc) =
        match lastNamed name ns with
        | some v => some (buildVal v)
        | none => fsLookup name acc
  | .nil => by intro acc name; simp [buildFs, lastNamed]
  | .cons n v rest => by
    intro acc name
    simp only [buildFs, lastNamed, fsLookup_buildFs rest]
    cases lastNamed name rest with
    | some r => simp
    | none =>
      rw [fsLookup_fsInsert]
      by_cases h : n = name <;> simp [h]

/-! ### Walker lemmas -/

mutual

theorem walk_eq_filter : ∀ (fv : FsVal) (root : String),
    walk fv root = (leavesVal fv root).filter (fun t => tsSuffix t.path)
  | .str c, root => by
    simp only [walk, leavesVal, tsSuffix, List.filter]
    cases h1 : jsEndsWith root ".ts" <;> cases h2 : jsEndsWith root ".tsx" <;>
      simp [h1, h2]
  | .fs entries, root => by
    simpa only [walk, leavesVal] using walkList_eq_filter entries root

theorem walkList_eq_filter : ∀ (l : FsEntries) (root : String),
    walkList l root = (leavesList l root).filter (fun t => tsSuffix t.path)
  | .nil, root => by simp [walkList, leavesList]
  | .cons name sub rest, root => by
    simp only [walkList, leavesList, List.filter_append]
    rw [walk_eq_filter sub _, walkList_eq_filter rest root]

end

theorem tsSuffix_of_mem_walk {fv : FsVal} {root : String} {t : TsContent}
    (h : t ∈ walk fv root) : tsSuffix t.path = true := by
  rw [walk_eq_filter] at h
  exact (List.mem_filter.mp h).2

theorem tsSuffix_of_mem_passUnits :
    ∀ {es : FsEntries} {bt : String} {t : TsContent},
      (bt, t) ∈ passUnits es → tsSuffix t.path = true
  | .nil, bt, t, h => by simp [passUnits] at h
  | .cons name sub rest, bt, t, h => by
    simp only [passUnits, List.mem_append, List.mem_map] at h
    rcases h with ⟨u, hu, he⟩ | h
    · cases he; exact tsSuffix_of_mem_walk hu
    · exact tsSuffix_of_mem_passUnits h

/-! ### Compile-step and fold lemmas -/

section ModelLemmas

variable {Module Err : Type} (ti : String → Except Err Module) (cd : String)

theorem compile_ok {bt : String} {t : TsContent} {m m' : AppManifest Module}
    {sm sm' : SMap} (h : compile ti cd bt t m sm = .ok (m', sm')) :
    ∃ mod, ti t.content = .ok mod ∧
      m' = { m with
              blocks := objInsert bt
                (objInsert (blockKeyOf m.name bt t) mod
                  ((objLookup bt m.blocks).getD []))
                m.blocks } ∧
      sm' = objInsert (blockKeyOf m.name bt t)
              ⟨blockPathOf cd bt t, t.content⟩ sm := by
  unfold compile at h
  cases hc : ti t.content with
  | error e => rw [hc] at h; exact absurd h (by simp)
  | ok mod =>
    rw [hc] at h
    rw [Except.ok.injEq, Prod.mk.injEq] at h
    exact ⟨mod, rfl, h.1.symm, h.2.symm⟩

theorem compile_of_error {bt : String} {t : TsContent} {e : Err}
    (m : AppManifest Module) (sm : SMap) (h : ti t.content = .error e) :
    compile ti cd bt t m sm = .error e := by
  unfold compile; rw [h]

theorem processUnits_eq (bt : String) :
    ∀ (ts : List TsContent) (acc : AppManifest Module × SMap),
      processUnits ti cd bt ts acc = processPairs ti cd (ts.map fun t => (bt, t)) acc
  | [], acc => rfl
  | t :: rest, acc => by
    simp only [processUnits, List.map_cons, processPairs]
    cases hc : compile ti cd bt t acc.1 acc.2 <;>
      simp [Except.bind, processUnits_eq bt rest]

theorem processPairs_append :
    ∀ (xs ys : List (String × TsContent)) (acc : AppManifest Module × SMap),
      processPairs ti cd (xs ++ ys) acc =
        (processPairs ti cd xs acc).bind (processPairs ti cd ys)
  | [], ys, acc => by simp [processPairs, Except.bind]
  | (bt, t) :: rest, ys, acc => by
    simp only [List.cons_append, processPairs]
    cases hc : compile ti cd bt t acc.1 acc.2 <;>
      simp [Except.bind, processPairs_append rest ys]

theorem processEntries_eq :
    ∀ (es : FsEntries) (acc : AppManifest Module × SMap),
      processEntries ti cd es acc = processPairs ti cd (passUnits es) acc
  | .nil, acc => rfl
  | .cons bt sub rest, acc => by
    simp only [processEntries, passUnits, processPairs_append, processUnits_eq]
    cases processPairs ti cd ((walk sub "").map fun t => (bt, t)) acc <;>
      simp [Except.bind, processEntries_eq rest]

theorem App_eq (m0 : AppManifest Module) (bsm : AppManifest Module → SMap)
    (fsys : NodeList) :
    App ti cd m0 bsm fsys =
      (processPairs ti cd (passUnits (buildFs fsys .nil)) (m0, bsm m0)).map
        (fun acc => ⟨acc.1, buildFs fsys .nil, acc.2⟩) := by
  simp [App, processEntries_eq]

theorem processPairs_name :
    ∀ (us : List (String × TsContent)) (acc : AppManifest Module × SMap)
      (m' : AppManifest Module) (sm' : SMap),
      processPairs ti cd us acc = .ok (m', sm') →
      m'.name = acc.1.name ∧ m'.baseUrl = acc.1.baseUrl
  | [], acc, m', sm', h => by
    simp only [processPairs, Except.ok.injEq] at h
    subst h
    exact ⟨rfl, rfl⟩
  | (bt, t) :: rest, acc, m', sm', h => by
    simp only [processPairs] at h
    cases hc : compile ti cd bt t acc.1 acc.2 with
    | error e => rw [hc] at h; exact absurd h (by simp [Except.bind])
    | ok acc1 =>
      obtain ⟨m1, sm1⟩ := acc1
      rw [hc] at h
      simp only [Except.bind] at h
      obtain ⟨mod, hmod, hm1, _⟩ := compile_ok ti cd hc
      obtain ⟨h1, h2⟩ := processPairs_name rest (m1, sm1) m' sm' h
      constructor
      · rw [h1, hm1]
      · rw [h2, hm1]

theorem processPairs_smLookup :
    ∀ (us : List (String × TsContent)) (acc : AppManifest Module × SMap)
      (m' : AppManifest Module) (sm' : SMap),
      processPairs ti cd us acc = .ok (m', sm') → ∀ k,
      objLookup k sm' =
        match lastWrite acc.1.name k us with
        | some (bt, t) => some ⟨blockPathOf cd bt t, t.content⟩
        | none => objLookup k acc.2
  | [], acc, m', sm', h, k => by
    simp only [processPairs, Except.ok.injEq] at h
    subst h
    simp [lastWrite]
  | (bt, t) :: rest, acc, m', sm', h, k => by
    simp only [processPairs] at h
    cases hc : compile ti cd bt t acc.1 acc.2 with
    | error e => rw [hc] at h; exact absurd h (by simp [Except.bind])
    | ok acc1 =>
      obtain ⟨m1, sm1⟩ := acc1
      rw [hc] at h
      simp only [Except.bind] at h
      obtain ⟨mod, hmod, hm1, hsm1⟩ := compile_ok ti cd hc
      have hname : m1.name = acc.1.name := by rw [hm1]
      have ih := processPairs_smLookup rest (m1, sm1) m' sm' h k
      simp only [hname] at ih
      simp only [lastWrite]
      cases hlw : lastWrite acc.1.name k rest with
      | some r =>
        obtain ⟨rb, rt⟩ := r
        rw [hlw] at ih
        simpa using ih
      | none =>
        rw [hlw] at ih
        simp only at ih
        rw [ih, hsm1, objLookup_objInsert]
        by_cases hk : blockKeyOf acc.1.name bt t = k <;> simp [hk]

theorem processPairs_blockLookup :
    ∀ (us : List (String × TsContent)) (acc : AppManifest Module × SMap)
      (m' : AppManifest Module) (sm' : SMap),
      processPairs ti cd us acc = .ok (m', sm') → ∀ cat k,
      lookupBlock m' cat k =
        match lastWriteCat acc.1.name cat k us with
        | some t => exceptOk (ti t.content)
        | none => lookupBlock acc.1 cat k
  | [], acc, m', sm', h, cat, k => by
    simp only [processPairs, Except.ok.injEq] at h
    subst h
    simp [lastWriteCat]
  | (bt, t) :: rest, acc, m', sm', h, cat, k => by
    simp only [processPairs] at h
    cases hc : compile ti cd bt t acc.1 acc.2 with
    | error e => rw [hc] at h; exact absurd h (by simp [Except.bind])
    | ok acc1 =>
      obtain ⟨m1, sm1⟩ := acc1
      rw [hc] at h
      simp only [Except.bind] at h
      obtain ⟨mod, hmod, hm1, _⟩ := compile_ok ti cd hc
      have hname : m1.name = acc.1.name := by rw [hm1]
      have ih := processPairs_blockLookup rest (m1, sm1) m' sm' h cat k
      simp only [hname] at ih
      simp only [lastWriteCat]
      cases hlw : lastWriteCat acc.1.name cat k rest with
      | some r =>
        rw [hlw] at ih
        simpa using ih
      | none =>
        rw [hlw] at ih
        simp only at ih
        rw [ih]
        have hblocks : m1.blocks =
            objInsert bt
              (objInsert (blockKeyOf acc.1.name bt t) mod
                ((objLookup bt acc.1.blocks).getD []))
              acc.1.blocks := by rw [hm1]
        by_cases hbt : bt = cat
        · subst hbt
          by_cases hk : blockKeyOf acc.1.name bt t = k
          · rw [if_pos ⟨rfl, hk⟩]
            simp [lookupBlock, hblocks, objLookup_objInsert, hk, hmod, exceptOk]
          · rw [if_neg (fun hx => hk hx.2)]
            simp [lookupBlock, hblocks, objLookup_objInsert, hk]
        · rw [if_neg (fun hx => hbt hx.1)]
          simp [lookupBlock, hblocks, objLookup_objInsert, hbt]

theorem processPairs_error_of_mem :
    ∀ (us : List (String × TsContent)) (acc : AppManifest Module × SMap)
      (bt : String) (t : TsContent) (e : Err),
      (bt, t) ∈ us → ti t.content = .error e →
      exceptOk (processPairs ti cd us acc) = none
  | [], _, _, _, _, h, _ => absurd h (List.not_mem_nil _)
  | (b0, t0) :: rest, acc, bt, t, e, h, he => by
    simp only [processPairs]
    cases hc : compile ti cd b0 t0 acc.1 acc.2 with
    | error e0 => simp [Except.bind, exceptOk]
    | ok acc1 =>
      simp only [Except.bind]
      rcases List.mem_cons.mp h with heq | hmem
      · obtain ⟨hb, ht⟩ := Prod.mk.injEq .. |>.mp heq
        subst hb; subst ht
        obtain ⟨mod, hmod, _, _⟩ := compile_ok ti cd hc
        rw [he] at hmod
        exact absurd hmod (by simp)
      · exact processPairs_error_of_mem rest acc1 bt t e hmem he

theorem processPairs_ok_of_all :
    ∀ (us : List (String × TsContent)) (acc : AppManifest Module × SMap),
      (∀ bt t, (bt, t) ∈ us → (exceptOk (ti t.content)).isSome = true) →
      (exceptOk (processPairs ti cd us acc)).isSome = true
  | [], acc, _ => by simp [processPairs, exceptOk]
  | (bt, t) :: rest, acc, h => by
    simp only [processPairs]
    have ht := h bt t (List.mem_cons_self _ _)
    cases hc : compile ti cd bt t acc.1 acc.2 with
    | error e =>
      unfold compile at hc
      cases hti : ti t.content with
      | error e2 => rw [hti] at ht; simp [exceptOk] at ht
      | ok mod => rw [hti] at hc; exact absurd hc (by simp)
    | ok acc1 =>
      simp only [Except.bind]
      exact processPairs_ok_of_all rest acc1
        (fun b u hm => h b u (List.mem_cons_of_mem _ hm))

end ModelLemmas

/-! ### Last-write lemmas -/

theorem lastWrite_mem :
    ∀ {ns k : String} {us : List (String × TsContent)} {bt : String} {t : TsContent},
      lastWrite ns k us = some (bt, t) → (bt, t) ∈ us ∧ blockKeyOf ns bt t = k
  | ns, k, [], bt, t, h => by simp [lastWrite] at h
  | ns, k, (b0, t0) :: rest, bt, t, h => by
    simp only [lastWrite] at h
    cases hlw : lastWrite ns k rest with
    | some r =>
      rw [hlw] at h
      simp only [Option.some.injEq] at h
      subst h
      obtain ⟨hm, hk⟩ := lastWrite_mem hlw
      exact ⟨List.mem_cons_of_mem _ hm, hk⟩
    | none =>
      rw [hlw] at h
      by_cases hc : blockKeyOf ns b0 t0 = k
      · rw [if_pos hc] at h
        simp only [Option.some.injEq] at h
        obtain ⟨hb, ht⟩ := Prod.mk.injEq .. |>.mp h.symm
        subst hb; subst ht
        exact ⟨List.mem_cons_self _ _, hc⟩
      · rw [if_neg hc] at h
        exact absurd h (by simp)

theorem lastWriteCat_mem :
    ∀ {ns cat k : String} {us : List (String × TsContent)} {t : TsContent},
      lastWriteCat ns cat k us = some t → (cat, t) ∈ us ∧ blockKeyOf ns cat t = k
  | ns, cat, k, [], t, h => by simp [lastWriteCat] at h
  | ns, cat, k, (b0, t0) :: rest, t, h => by
    simp only [lastWriteCat] at h
    cases hlw : lastWriteCat ns cat k rest with
    | some r =>
      rw [hlw] at h
      simp only [Option.some.injEq] at h
      subst h
      obtain ⟨hm, hk⟩ := lastWriteCat_mem hlw
      exact ⟨List.mem_cons_of_mem _ hm, hk⟩
    | none =>
      rw [hlw] at h
      by_cases hc : b0 = cat ∧ blockKeyOf ns b0 t0 = k
      · rw [if_pos hc] at h
        simp only [Option.some.injEq] at h
        subst h
        obtain ⟨hb, hk⟩ := hc
        subst hb
        exact ⟨List.mem_cons_self _ _, hk⟩
      · rw [if_neg hc] at h
        exact absurd h (by simp)

theorem lastWrite_isSome_of_mem :
    ∀ (ns : String) {us : List (String × TsContent)} {bt : String} {t : TsContent},
      (bt, t) ∈ us → (lastWrite ns (blockKeyOf ns bt t) us).isSome = true
  | ns, [], bt, t, h => absurd h (List.not_mem_nil _)
  | ns, (b0, t0) :: rest, bt, t, h => by
    simp only [lastWrite]
    rcases List.mem_cons.mp h with heq | hmem
    · cases hlw : lastWrite ns (blockKeyOf ns bt t) rest with
      | some r => simp
      | none =>
        obtain ⟨hb, ht⟩ := Prod.mk.injEq .. |>.mp heq
        subst hb; subst ht
        simp
    · have hrec := lastWrite_isSome_of_mem ns hmem
      cases hlw : lastWrite ns (blockKeyOf ns bt t) rest with
      | some r => simp
      | none => rw [hlw] at hrec; simp at hrec

theorem lastWriteCat_of_lastWrite :
    ∀ {ns k : String} {us : List (String × TsContent)} {bt : String} {t : TsContent},
      lastWrite ns k us = some (bt, t) → lastWriteCat ns bt k us = some t
  | ns, k, [], bt, t, h => by simp [lastWrite] at h
  | ns, k, (b0, t0) :: rest, bt, t, h => by
    simp only [lastWrite] at h
    simp only [lastWriteCat]
    cases hlw : lastWrite ns k rest with
    | some r =>
      rw [hlw] at h
      simp only [Option.some.injEq] at h
      subst h
      rw [lastWriteCat_of_lastWrite hlw]
    | none =>
      rw [hlw] at h
      by_cases hc : blockKeyOf ns b0 t0 = k
      · rw [if_pos hc] at h
        simp only [Option.some.injEq] at h
        obtain ⟨hb, ht⟩ := Prod.mk.injEq .. |>.mp h.symm
        subst hb; subst ht
        cases hlwc : lastWriteCat ns bt k rest with
        | some t2 =>
          obtain ⟨hm, hk⟩ := lastWriteCat_mem hlwc
          have := lastWrite_isSome_of_mem ns hm
          rw [hk, hlw] at this
          simp at this
        | none => simp [hc]
      · rw [if_neg hc] at h
        exact absurd h (by simp)

/-! ### App-level helper lemmas -/

section AppLemmas

variable {Module Err : Type} (ti : String → Except Err Module) (cd : String)
  (m0 : AppManifest Module) (bsm : AppManifest Module → SMap) (fsys : NodeList)

theorem app_dest (hok : appOk (App ti cd m0 bsm fsys) = true) :
    ∃ m' sm',
      processPairs ti cd (passUnits (buildFs fsys .nil)) (m0, bsm m0) = .ok (m', sm') ∧
      App ti cd m0 bsm fsys = .ok ⟨m', buildFs fsys .nil, sm'⟩ := by
  rw [App_eq] at hok ⊢
  cases hp : processPairs ti cd (passUnits (buildFs fsys .nil)) (m0, bsm m0) with
  | error e => rw [hp] at hok; simp [appOk, Except.map] at hok
  | ok acc =>
    obtain ⟨m', sm'⟩ := acc
    exact ⟨m', sm', rfl, by simp [Except.map]⟩

theorem appSMLookup_of_dest {m' : AppManifest Module} {sm' : SMap}
    (hApp : App ti cd m0 bsm fsys = .ok ⟨m', buildFs fsys .nil, sm'⟩) (k : String) :
    appSMLookup k (App ti cd m0 bsm fsys) = objLookup k sm' := by
  rw [hApp]; rfl

theorem appBlockLookup_of_dest {m' : AppManifest Module} {sm' : SMap}
    (hApp : App ti cd m0 bsm fsys = .ok ⟨m', buildFs fsys .nil, sm'⟩) (cat k : String) :
    appBlockLookup cat k (App ti cd m0 bsm fsys) = lookupBlock m' cat k := by
  rw [hApp]; rfl

theorem app_smLookup_lastWrite (hok : appOk (App ti cd m0 bsm fsys) = true) (k : String) :
    appSMLookup k (App ti cd m0 bsm fsys) =
      match lastWrite m0.name k (passUnits (buildFs fsys .nil)) with
      | some (bt, t) => some ⟨blockPathOf cd bt t, t.content⟩
      | none => objLookup k (bsm m0) := by
  obtain ⟨m', sm', hp, hApp⟩ := app_dest ti cd m0 bsm fsys hok
  rw [appSMLookup_of_dest ti cd m0 bsm fsys hApp k]
  exact processPairs_smLookup ti cd _ (m0, bsm m0) m' sm' hp k

theorem app_blockLookup_lastWriteCat (hok : appOk (App ti cd m0 bsm fsys) = true)
    (cat k : String) :
    appBlockLookup cat k (App ti cd m0 bsm fsys) =
      match lastWriteCat m0.name cat k (passUnits (buildFs fsys .nil)) with
      | some t => exceptOk (ti t.content)
      | none => lookupBlock m0 cat k := by
  obtain ⟨m', sm', hp, hApp⟩ := app_dest ti cd m0 bsm fsys hok
  rw [appBlockLookup_of_dest ti cd m0 bsm fsys hApp cat k]
  exact processPairs_blockLookup ti cd _ (m0, bsm m0) m' sm' hp cat k

theorem app_newKey_lastWrite (hok : appOk (App ti cd m0 bsm fsys) = true) (k : String)
    (hnew : appSMLookup k (App ti cd m0 bsm fsys) ≠ objLookup k (bsm m0)) :
    ∃ bt t, lastWrite m0.name k (passUnits (buildFs fsys .nil)) = some (bt, t) := by
  have hsm := app_smLookup_lastWrite ti cd m0 bsm fsys hok k
  cases hlw : lastWrite m0.name k (passUnits (buildFs fsys .nil)) with
  | some r => obtain ⟨rb, rt⟩ := r; exact ⟨rb, rt, rfl⟩
  | none => rw [hlw] at hsm; exact absurd hsm hnew

theorem processPairs_mem_ok :
    ∀ (us : List (String × TsContent)) (acc : AppManifest Module × SMap),
      (exceptOk (processPairs ti cd us acc)).isSome = true →
      ∀ bt t, (bt, t) ∈ us → (exceptOk (ti t.content)).isSome = true
  | [], acc, _, bt, t, hm => absurd hm (List.not_mem_nil _)
  | (b0, t0) :: rest, acc, hok, bt, t, hm => by
    simp only [processPairs] at hok
    cases hc : compile ti cd b0 t0 acc.1 acc.2 with
    | error e => rw [hc] at hok; simp [Except.bind, exceptOk] at hok
    | ok acc1 =>
      rw [hc] at hok
      simp only [Except.bind] at hok
      rcases List.mem_cons.mp hm with heq | hmem
      · obtain ⟨hb, ht⟩ := Prod.mk.injEq .. |>.mp heq
        subst hb; subst ht
        obtain ⟨mod, hmod, _, _⟩ := compile_ok ti cd hc
        rw [hmod]; rfl
      · exact processPairs_mem_ok rest acc1 hok bt t hmem

theorem app_ok_of_all
    (hall : ∀ bt t, (bt, t) ∈ passUnits (buildFs fsys .nil) →
      (exceptOk (ti t.content)).isSome = true) :
    appOk (App ti cd m0 bsm fsys) = true := by
  rw [App_eq]
  have h := processPairs_ok_of_all ti cd (passUnits (buildFs fsys .nil)) (m0, bsm m0) hall
  cases hp : processPairs ti cd (passUnits (buildFs fsys .nil)) (m0, bsm m0) with
  | error e => rw [hp] at h; simp [exceptOk] at h
  | ok acc => simp [appOk, Except.map]

end AppLemmas

/-! ### Toolchain initialization trace model

Source (module scope, lines 56–59 of the app module):
```
const initializePromise = initialize({
  wasmURL: "https://deno.land/x/esbuild@v0.19.7/esbuild.wasm",
  worker: false,
});
```
and, first statement of `compile`: `await initializePromise;`.
The `initialize(...)` call is a top-level statement of the module, so it runs
when the module is evaluated (loaded) — once per process thanks to the JS
module cache — and `compile` only awaits the already-created promise.  The
trace model records, for a sequence of process events, how many times
`initialize` has been invoked and whether the shared promise exists. -/

/-- Observable process events: the module's top-level evaluation, and a
compile request (with the requested source text). -/
inductive ProcEvent : Type where
  | moduleLoad : ProcEvent
  | compileRequest (content : String) : ProcEvent
deriving DecidableEq, Repr

/-- Whether an event is a compile request. -/
def isCompileRequest : ProcEvent → Bool
  | .compileRequest _ => true
  | .moduleLoad => false

/-- Whether an event is the module's top-level evaluation. -/
def isModuleLoad : ProcEvent → Bool
  | .moduleLoad => true
  | .compileRequest _ => false

/-- Process state tracked by the model: how many times `initialize` has run,
and whether `initializePromise` has been created. -/
structure ToolchainState : Type where
  initializeCalls : Nat
  promiseCreated : Bool
deriving DecidableEq, Repr

/-- One step: module evaluation executes the top-level
`const initializePromise = initialize(...)`; a compile request merely awaits
the existing promise (`await initializePromise`) and never calls
`initialize`. -/
def stepEvent (s : ToolchainState) : ProcEvent → ToolchainState
  | .moduleLoad => ⟨s.initializeCalls + 1, true⟩
  | .compileRequest _ => s

/-- Run a process trace from the initial state (nothing initialized). -/
def runEvents (tr : List ProcEvent) : ToolchainState :=
  tr.foldl stepEvent ⟨0, false⟩

theorem foldl_stepEvent_initializeCalls :
    ∀ (tr : List ProcEvent) (s : ToolchainState),
      (tr.foldl stepEvent s).initializeCalls = s.initializeCalls + tr.countP isModuleLoad
  | [], s => by simp [List.countP, List.countP.go]
  | e :: rest, s => by
    cases e with
    | moduleLoad =>
      simp only [List.foldl, stepEvent, foldl_stepEvent_initializeCalls rest,
        List.countP_cons]
      simp [isModuleLoad]
      omega
    | compileRequest c =>
      simp only [List.foldl, stepEvent, foldl_stepEvent_initializeCalls rest,
        List.countP_cons]
      simp [isModuleLoad]

/-! ### Concrete fixtures for witnesses and counterexamples -/

/-- A concrete toolchain for concrete runs: compilation fails exactly on the
source text `"bad"` and otherwise loads the source text itself as the
module. -/
def stubImport : String → Except String String :=
  fun s => if s = "bad" then .error "boom" else .ok s

/-- A concrete base manifest with namespace `acme` and one (empty) `loaders`
category. -/
def acmeManifest : AppManifest String :=
  ⟨"acme", "https://acme.example", [("loaders", [])]⟩

/-- A concrete stand-in for the hosting library's `buildSourceMap`, returning
the empty base source map. -/
def emptyBSM : AppManifest String → SMap := fun _ => []

/-- Tree with a single nested `.ts` leaf: `loaders/foo/bar.ts`. -/
def tsTree : NodeList :=
  nodesOfList [("loaders", .dir (nodesOfList
    [("foo", .dir (nodesOfList [("bar.ts", .file "x")]))]))]

/-- Tree with a single nested `.src` leaf: `loaders/foo/bar.src`. -/
def srcTree : NodeList :=
  nodesOfList [("loaders", .dir (nodesOfList
    [("foo", .dir (nodesOfList [("bar.src", .file "x")]))]))]

/-- Tree whose leaves are all unrecognized (`.md`, `.json`). -/
def mdTree : NodeList :=
  nodesOfList [("loaders", .dir (nodesOfList
    [("x.md", .file "m"), ("deep", .dir (nodesOfList [("y.json", .file "j")]))]))]

/-- Five `.ts` units in one category; the third has content `"bad"`, which
`stubImport` rejects. -/
def fiveTree : NodeList :=
  nodesOfList [("loaders", .dir (nodesOfList
    [("a.ts", .file "1"), ("b.ts", .file "2"), ("c.ts", .file "bad"),
     ("d.ts", .file "4"), ("e.ts", .file "5")]))]

/-- Two source units that resolve to the same block key
`acme/loaders/b/x.ts`: a leaf literally named `b/x.ts` and a leaf `x.ts`
inside a directory `b`, in that traversal order. -/
def collisionTree : NodeList :=
  nodesOfList [("loaders", .dir (nodesOfList
    [("b/x.ts", .file "old"), ("b", .dir (nodesOfList [("x.ts", .file "new")]))]))]

/-- Two top-level nodes with the same name `loaders`: the earlier holds leaf
`a.ts`, the later holds leaf `b.ts`. -/
def dupTree : NodeList :=
  nodesOfList [("loaders", .dir (nodesOfList [("a.ts", .file "old")])),
    ("loaders", .dir (nodesOfList [("b.ts", .file "new")]))]

theorem foldl_stepEvent_promiseCreated :
    ∀ (tr : List ProcEvent) (s : ToolchainState),
      (tr.foldl stepEvent s).promiseCreated = (s.promiseCreated || tr.any isModuleLoad)
  | [], s => by simp
  | e :: rest, s => by
    cases e <;>
      simp [List.foldl, stepEvent, List.any_cons, isModuleLoad,
        foldl_stepEvent_promiseCreated rest]

/-! ### Claims -/

/-- Claim C1: if any source unit in the build pass fails to compile or load
(the `tsImport` step returns an error for its content), the whole pass fails:
`App` returns an error, hence no result at all — in particular no partial
manifest or source map containing entries from units processed earlier in the
pass.  The base `manifest0` and base source map are never altered: the fold
only builds new values with `objInsert` (copy-on-write spreads in the
source), so the caller's pre-pass values are untouched by construction in
this pure embedding. -/
theorem appFailsWhenUnitFails {Module Err : Type}
    (tsImport : String → Except Err Module) (currdir : String)
    (manifest0 : AppManifest Module) (bsm : AppManifest Module → SMap)
    (fileSystem : NodeList) (bt : String) (t : TsContent) (e : Err)
    (hmem : (bt, t) ∈ passUnits (buildFs fileSystem .nil))
    (herr : tsImport t.content = .error e) :
    appOk (App tsImport currdir manifest0 bsm fileSystem) = false := by
  rw [App_eq]
  have hnone := processPairs_error_of_mem tsImport currdir
    (passUnits (buildFs fileSystem .nil)) (manifest0, bsm manifest0) bt t e hmem herr
  cases hp : processPairs tsImport currdir (passUnits (buildFs fileSystem .nil))
      (manifest0, bsm manifest0) with
  | error e2 => simp [appOk, Except.map]
  | ok acc => rw [hp] at hnone; simp [exceptOk] at hnone

/-- Witness for C1: five `.ts` units in walker order whose third unit has
content `"bad"`, which the concrete toolchain rejects; the build pass fails
as a whole. -/
theorem appFailsWhenUnitFails_witness :
    appOk (App stubImport "file:///src" acmeManifest emptyBSM fiveTree) = false :=
  appFailsWhenUnitFails stubImport "file:///src" acmeManifest emptyBSM fiveTree
    "loaders" ⟨"c.ts", "bad"⟩ "boom" (by decide) rfl

/-- Claim C2 counterexample: initialization is NOT created on first compile
demand.  In the source, `const initializePromise = initialize(...)` is a
top-level statement, so the module's load event alone runs `initialize`: a
process trace consisting of just the module load has zero compile requests
but one initialization call, refuting "no initialization work is started
before the first compile request". -/
theorem initLazyCounterexample :
    List.countP isCompileRequest [ProcEvent.moduleLoad] = 0 ∧
    (runEvents [ProcEvent.moduleLoad]).initializeCalls ≠ 0 :=
  ⟨by decide, by decide⟩

/-- Claim C2 (amended): toolchain initialization is eager, not lazy: the
shared initialization future is created by the module's top-level evaluation
(at load time, before any compile request), `initialize` runs exactly once
per module load and compile requests never invoke it, so in a process that
loads the module once — the JS module-cache guarantee — initialization runs
exactly once and every compile call awaits that single shared future. -/
theorem initExactlyOncePerLoad (tr : List ProcEvent) :
    (runEvents tr).initializeCalls = tr.countP isModuleLoad ∧
    (runEvents tr).promiseCreated = tr.any isModuleLoad ∧
    (tr.countP isModuleLoad = 1 → (runEvents tr).initializeCalls = 1) := by
  have h1 := foldl_stepEvent_initializeCalls tr ⟨0, false⟩
  have h2 := foldl_stepEvent_promiseCreated tr ⟨0, false⟩
  refine ⟨?_, ?_, ?_⟩
  · rw [runEvents, h1]; simp
  · rw [runEvents, h2]; simp
  · intro hone; rw [runEvents, h1, hone]

/-- Witness for C2 (amended): one module load followed by two compile
requests yields exactly one initialization. -/
theorem initExactlyOncePerLoad_witness :
    (runEvents [ProcEvent.moduleLoad, ProcEvent.compileRequest "a",
      ProcEvent.compileRequest "b"]).initializeCalls = 1 :=
  (initExactlyOncePerLoad [ProcEvent.moduleLoad, ProcEvent.compileRequest "a",
    ProcEvent.compileRequest "b"]).2.2 (by decide)

/-- Claim C3 counterexample: the claim's "in particular" instance fails on
the code.  A leaf at top-level category `loaders` with nested path
`foo/bar.src` under namespace `acme` is never registered: the walker only
recognizes `.ts`/`.tsx` suffixes, so a `.src` leaf is silently dropped — the
pass succeeds and neither the source map nor the manifest contains block key
`acme/loaders/foo/bar.src`. -/
theorem srcLeafNotRegistered :
    appOk (App stubImport "file:///src" acmeManifest emptyBSM srcTree) = true ∧
    appSMLookup "acme/loaders/foo/bar.src"
      (App stubImport "file:///src" acmeManifest emptyBSM srcTree) = none ∧
    appBlockLookup "loaders" "acme/loaders/foo/bar.src"
      (App stubImport "file:///src" acmeManifest emptyBSM srcTree) = none :=
  ⟨by decide, by decide, by decide⟩

/-- Claim C3 (amended): for every retained source unit, the block key under
which it is registered is exactly `<namespace>/<category>/<path>` with
forward-slash separators (namespace is `manifest.name`, category the
top-level entry name, path the walker-emitted relative path, which has no
trailing slash since it ends in a recognized suffix); in particular a leaf
with nested path `foo/bar.ts` at category `loaders` under namespace `acme`
gets block key exactly `acme/loaders/foo/bar.ts`.  (The claim's literal
`foo/bar.src` example is rejected by the suffix filter instead of being
registered; see the counterexample.) -/
theorem blockKeyShape {Module Err : Type} (tsImport : String → Except Err Module)
    (currdir : String) (manifest0 : AppManifest Module)
    (bsm : AppManifest Module → SMap) (fileSystem : NodeList)
    (hok : appOk (App tsImport currdir manifest0 bsm fileSystem) = true) (k : String)
    (hnew : appSMLookup k (App tsImport currdir manifest0 bsm fileSystem) ≠
      objLookup k (bsm manifest0)) :
    ∃ bt t, (bt, t) ∈ passUnits (buildFs fileSystem .nil) ∧
      k = manifest0.name ++ "/" ++ bt ++ "/" ++ t.path := by
  obtain ⟨bt, t, hlw⟩ :=
    app_newKey_lastWrite tsImport currdir manifest0 bsm fileSystem hok k hnew
  obtain ⟨hm, hk⟩ := lastWrite_mem hlw
  exact ⟨bt, t, hm, hk.symm⟩

/-- Witness for C3 (amended): the key `acme/loaders/foo/bar.ts` freshly bound
by the pass decomposes as namespace/category/path of a walked unit. -/
theorem blockKeyShape_witness :
    ∃ bt t, (bt, t) ∈ passUnits (buildFs tsTree .nil) ∧
      "acme/loaders/foo/bar.ts" = "acme" ++ "/" ++ bt ++ "/" ++ t.path :=
  blockKeyShape stubImport "file:///src" acmeManifest emptyBSM tsTree (by decide)
    "acme/loaders/foo/bar.ts" (by decide)

/-- Claim C4 counterexample: the source-map entry does NOT record the
walker-emitted root-relative path.  The walker emits path `foo/bar.ts`, but
the stored entry's `path` is the derived
`join(currdir, blockType, path) = file:///src/loaders/foo/bar.ts`. -/
theorem smPathDerivedCounterexample :
    passUnits (buildFs tsTree .nil) = [("loaders", ⟨"foo/bar.ts", "x"⟩)] ∧
    appSMLookup "acme/loaders/foo/bar.ts"
        (App stubImport "file:///src" acmeManifest emptyBSM tsTree)
      = some ⟨"file:///src/loaders/foo/bar.ts", "x"⟩ ∧
    ("file:///src/loaders/foo/bar.ts" : String) ≠ "foo/bar.ts" :=
  ⟨by decide, by decide, by decide⟩

/-- Claim C4 (amended): for every retained source unit, the source-map entry
under its block key records the derived block path
`join(currdir, category, path)` — a transformed path, not the walker's
original root-relative path — together with the unit's original content. -/
theorem smEntryDerivedPath {Module Err : Type} (tsImport : String → Except Err Module)
    (currdir : String) (manifest0 : AppManifest Module)
    (bsm : AppManifest Module → SMap) (fileSystem : NodeList)
    (hok : appOk (App tsImport currdir manifest0 bsm fileSystem) = true)
    (k bt : String) (t : TsContent)
    (hlast : lastWrite manifest0.name k (passUnits (buildFs fileSystem .nil))
      = some (bt, t)) :
    appSMLookup k (App tsImport currdir manifest0 bsm fileSystem)
      = some ⟨currdir ++ "/" ++ bt ++ "/" ++ t.path, t.content⟩ := by
  have h := app_smLookup_lastWrite tsImport currdir manifest0 bsm fileSystem hok k
  rw [hlast] at h
  exact h

/-- Witness for C4 (amended): the retained `foo/bar.ts` unit's entry carries
the derived block path. -/
theorem smEntryDerivedPath_witness :
    appSMLookup "acme/loaders/foo/bar.ts"
        (App stubImport "file:///src" acmeManifest emptyBSM tsTree)
      = some ⟨"file:///src" ++ "/" ++ "loaders" ++ "/" ++ "foo/bar.ts", "x"⟩ :=
  smEntryDerivedPath stubImport "file:///src" acmeManifest emptyBSM tsTree (by decide)
    "acme/loaders/foo/bar.ts" "loaders" ⟨"foo/bar.ts", "x"⟩ (by decide)

/-- Claim C5: extension filtering.  (i) The walker's output is exactly the
leaf list filtered by the recognized suffixes `.ts`/`.tsx` — so an `x.md` or
`x.json` leaf is dropped at any nesting depth, silently; (ii) in a successful
pass every walked (suffix-matching) unit's block key is present in the output
source map; (iii) every key freshly bound by the pass comes from a walked
unit with a recognized suffix (so no non-matching leaf ever contributes an
entry); (iv) non-matching leaves never cause an error: the pass succeeds
whenever every *walked* unit compiles. -/
theorem extensionFiltering :
    (∀ (fv : FsVal) (root : String),
      walk fv root = (leavesVal fv root).filter (fun t => tsSuffix t.path)) ∧
    (∀ (Module Err : Type) (tsImport : String → Except Err Module) (currdir : String)
      (manifest0 : AppManifest Module) (bsm : AppManifest Module → SMap)
      (fileSystem : NodeList),
      (appOk (App tsImport currdir manifest0 bsm fileSystem) = true →
        ∀ bt t, (bt, t) ∈ passUnits (buildFs fileSystem .nil) →
          (appSMLookup (blockKeyOf manifest0.name bt t)
            (App tsImport currdir manifest0 bsm fileSystem)).isSome = true) ∧
      (appOk (App tsImport currdir manifest0 bsm fileSystem) = true →
        ∀ k, appSMLookup k (App tsImport currdir manifest0 bsm fileSystem) ≠
            objLookup k (bsm manifest0) →
          ∃ bt t, (bt, t) ∈ passUnits (buildFs fileSystem .nil) ∧
            k = blockKeyOf manifest0.name bt t ∧ tsSuffix t.path = true) ∧
      ((∀ bt t, (bt, t) ∈ passUnits (buildFs fileSystem .nil) →
          (exceptOk (tsImport t.content)).isSome = true) →
        appOk (App tsImport currdir manifest0 bsm fileSystem) = true)) := by
  refine ⟨walk_eq_filter, fun M E ti cd m0 bsm fsys => ⟨?_, ?_, ?_⟩⟩
  · intro hok bt t hm
    have h := app_smLookup_lastWrite ti cd m0 bsm fsys hok (blockKeyOf m0.name bt t)
    have hs := lastWrite_isSome_of_mem m0.name hm
    cases hlw : lastWrite m0.name (blockKeyOf m0.name bt t)
        (passUnits (buildFs fsys .nil)) with
    | none => rw [hlw] at hs; simp at hs
    | some r =>
      obtain ⟨rb, rt⟩ := r
      rw [hlw] at h
      simp [h]
  · intro hok k hnew
    obtain ⟨bt, t, hlw⟩ := app_newKey_lastWrite ti cd m0 bsm fsys hok k hnew
    obtain ⟨hm, hk⟩ := lastWrite_mem hlw
    exact ⟨bt, t, hm, hk.symm, tsSuffix_of_mem_passUnits hm⟩
  · exact app_ok_of_all ti cd m0 bsm fsys

/-- Witness for C5: the walked `foo/bar.ts` unit's key is present in the
output source map, and a pass over a tree whose only leaves are `x.md` and
`deep/y.json` succeeds with nothing to compile. -/
theorem extensionFiltering_witness :
    (appSMLookup (blockKeyOf "acme" "loaders" ⟨"foo/bar.ts", "x"⟩)
      (App stubImport "file:///src" acmeManifest emptyBSM tsTree)).isSome = true ∧
    appOk (App stubImport "file:///src" acmeManifest emptyBSM mdTree) = true :=
  ⟨(extensionFiltering.2 String String stubImport "file:///src" acmeManifest emptyBSM
      tsTree).1 (by decide) "loaders" ⟨"foo/bar.ts", "x"⟩ (by decide),
   (extensionFiltering.2 String String stubImport "file:///src" acmeManifest emptyBSM
      mdTree).2.2 (by
        intro bt t hm
        rw [show passUnits (buildFs mdTree .nil) = [] from rfl] at hm
        exact absurd hm (List.not_mem_nil _))⟩

/-- Claim C6: when two source units of one pass resolve to the same block
key, the unit processed later in traversal order wins in both structures:
after a successful pass the key is bound in the source map to the later
unit's path/content entry and in the manifest (under the later unit's
category) to the later unit's compiled module; the earlier binding is
silently overwritten (the pass still succeeds). -/
theorem collisionLastWins {Module Err : Type} (tsImport : String → Except Err Module)
    (currdir : String) (manifest0 : AppManifest Module)
    (bsm : AppManifest Module → SMap) (fileSystem : NodeList)
    (hok : appOk (App tsImport currdir manifest0 bsm fileSystem) = true)
    (k bt : String) (t : TsContent)
    (hlast : lastWrite manifest0.name k (passUnits (buildFs fileSystem .nil))
      = some (bt, t)) :
    appSMLookup k (App tsImport currdir manifest0 bsm fileSystem)
      = some ⟨blockPathOf currdir bt t, t.content⟩ ∧
    (exceptOk (tsImport t.content)).isSome = true ∧
    appBlockLookup bt k (App tsImport currdir manifest0 bsm fileSystem)
      = exceptOk (tsImport t.content) := by
  refine ⟨?_, ?_, ?_⟩
  · have h := app_smLookup_lastWrite tsImport currdir manifest0 bsm fileSystem hok k
    rw [hlast] at h
    exact h
  · obtain ⟨hm, _⟩ := lastWrite_mem hlast
    obtain ⟨m', sm', hp, _⟩ := app_dest tsImport currdir manifest0 bsm fileSystem hok
    exact processPairs_mem_ok tsImport currdir _ (manifest0, bsm manifest0)
      (by rw [hp]; rfl) bt t hm
  · have h := app_blockLookup_lastWriteCat tsImport currdir manifest0 bsm fileSystem hok bt k
    rw [lastWriteCat_of_lastWrite hlast] at h
    exact h

/-- Witness for C6: two units both keyed `acme/loaders/b/x.ts` (a leaf named
`b/x.ts` with content `"old"`, then `b/x.ts` inside directory `b` with
content `"new"`); the later one is what the key is bound to in both the
source map and the manifest. -/
theorem collisionLastWins_witness :
    appSMLookup "acme/loaders/b/x.ts"
        (App stubImport "file:///src" acmeManifest emptyBSM collisionTree)
      = some ⟨blockPathOf "file:///src" "loaders" ⟨"b/x.ts", "new"⟩, "new"⟩ ∧
    (exceptOk (stubImport "new")).isSome = true ∧
    appBlockLookup "loaders" "acme/loaders/b/x.ts"
        (App stubImport "file:///src" acmeManifest emptyBSM collisionTree)
      = exceptOk (stubImport "new") :=
  collisionLastWins stubImport "file:///src" acmeManifest emptyBSM collisionTree
    (by decide) "acme/loaders/b/x.ts" "loaders" ⟨"b/x.ts", "new"⟩ (by decide)

/-- Claim C7: flattening preserves the stored order of children in every
directory and the walker visits entries in that stored order, not lexical
order: for two distinctly-named nodes, trees holding `[a, b]` versus
`[b, a]` produce the corresponding source units in those respective
orders. -/
theorem orderPreservation (na nb : String) (va vb : NodeValue) (h : na ≠ nb) :
    walkList (buildFs (nodesOfList [(na, va), (nb, vb)]) .nil) "" =
      walk (buildVal va) na ++ walk (buildVal vb) nb ∧
    walkList (buildFs (nodesOfList [(nb, vb), (na, va)]) .nil) "" =
      walk (buildVal vb) nb ++ walk (buildVal va) na := by
  have h' : nb ≠ na := fun he => h he.symm
  constructor <;> simp [nodesOfList, buildFs, fsInsert, walkList, h, h']

/-- Witness for C7: with children `b.ts` before `a.ts`, traversal emits
`b.ts` first — stored order, not lexical order — and swapping the children
swaps the output. -/
theorem orderPreservation_witness :
    walkList (buildFs (nodesOfList
        [("b.ts", NodeValue.file "1"), ("a.ts", NodeValue.file "2")]) .nil) "" =
      walk (buildVal (NodeValue.file "1")) "b.ts" ++
        walk (buildVal (NodeValue.file "2")) "a.ts" ∧
    walkList (buildFs (nodesOfList
        [("a.ts", NodeValue.file "2"), ("b.ts", NodeValue.file "1")]) .nil) "" =
      walk (buildVal (NodeValue.file "2")) "a.ts" ++
        walk (buildVal (NodeValue.file "1")) "b.ts" :=
  orderPreservation "b.ts" "a.ts" (NodeValue.file "1") (NodeValue.file "2") (by decide)

/-- Claim C8: each linking step is pure and frame-preserving.  A successful
`compile` call leaves `name` and `baseUrl` intact, leaves every category
other than the linked unit's category with exactly its old mapping, binds
the linked category to a copy of its old mapping extended with the one new
key ↦ compiled-module binding, and extends the source map with exactly the
one new entry, leaving every other key's binding unchanged.  (Non-mutation
of the inputs is inherent: the step only constructs new values via
`objInsert`, mirroring the source's object spreads.) -/
theorem linkStepFrame {Module Err : Type} (tsImport : String → Except Err Module)
    (currdir bt : String) (t : TsContent) (m : AppManifest Module) (sm : SMap)
    (m' : AppManifest Module) (sm' : SMap)
    (h : compile tsImport currdir bt t m sm = .ok (m', sm')) :
    m'.name = m.name ∧ m'.baseUrl = m.baseUrl ∧
    (∀ cat, cat ≠ bt → objLookup cat m'.blocks = objLookup cat m.blocks) ∧
    (∃ mod, tsImport t.content = .ok mod ∧
      objLookup bt m'.blocks =
        some (objInsert (blockKeyOf m.name bt t) mod
          ((objLookup bt m.blocks).getD []))) ∧
    sm' = objInsert (blockKeyOf m.name bt t)
      ⟨blockPathOf currdir bt t, t.content⟩ sm ∧
    (∀ q, q ≠ blockKeyOf m.name bt t → objLookup q sm' = objLookup q sm) := by
  obtain ⟨mod, hmod, hm, hsm⟩ := compile_ok tsImport currdir h
  subst hm; subst hsm
  refine ⟨rfl, rfl, ?_, ⟨mod, hmod, ?_⟩, rfl, ?_⟩
  · intro cat hcat
    show objLookup cat (objInsert bt _ m.blocks) = _
    rw [objLookup_objInsert, if_neg (fun he => hcat he.symm)]
  · show objLookup bt (objInsert bt _ m.blocks) = _
    rw [objLookup_objInsert, if_pos rfl]
  · intro q hq
    rw [objLookup_objInsert, if_neg (fun he => hq he.symm)]

/-- Witness for C8: one concrete linking step over the `acme` base manifest;
the untouched `actions` category reads back unchanged, `loaders` is the old
mapping plus the one new binding, and the new source map is the old one plus
the one new entry. -/
theorem linkStepFrame_witness :
    (⟨"acme", "https://acme.example",
        [("loaders", [("acme/loaders/a.ts", "m")])]⟩ : AppManifest String).name
      = acmeManifest.name ∧
    objLookup "actions" (⟨"acme", "https://acme.example",
        [("loaders", [("acme/loaders/a.ts", "m")])]⟩ : AppManifest String).blocks
      = objLookup "actions" acmeManifest.blocks ∧
    ([("acme/loaders/a.ts", ⟨"file:///src/loaders/a.ts", "m"⟩)] : SMap)
      = objInsert (blockKeyOf acmeManifest.name "loaders" ⟨"a.ts", "m"⟩)
          ⟨blockPathOf "file:///src" "loaders" ⟨"a.ts", "m"⟩, "m"⟩ [] := by
  have h := linkStepFrame stubImport "file:///src" "loaders" ⟨"a.ts", "m"⟩
    acmeManifest []
    ⟨"acme", "https://acme.example", [("loaders", [("acme/loaders/a.ts", "m")])]⟩
    [("acme/loaders/a.ts", ⟨"file:///src/loaders/a.ts", "m"⟩)] rfl
  exact ⟨h.1, h.2.2.1 "actions" (by decide), h.2.2.2.2.1⟩

/-- Claim C9: round-trip — for every unit retained in a successful pass (the
last-written unit for its block key), the content stored in the output source
map under that key is exactly the unit's original leaf content, with no
normalization or mutation. -/
theorem roundTripContent {Module Err : Type} (tsImport : String → Except Err Module)
    (currdir : String) (manifest0 : AppManifest Module)
    (bsm : AppManifest Module → SMap) (fileSystem : NodeList)
    (hok : appOk (App tsImport currdir manifest0 bsm fileSystem) = true)
    (k bt : String) (t : TsContent)
    (hlast : lastWrite manifest0.name k (passUnits (buildFs fileSystem .nil))
      = some (bt, t)) :
    (appSMLookup k (App tsImport currdir manifest0 bsm fileSystem)).map
      TsContent.content = some t.content := by
  have h := app_smLookup_lastWrite tsImport currdir manifest0 bsm fileSystem hok k
  rw [hlast] at h
  rw [h]
  rfl

/-- Witness for C9: the retained `foo/bar.ts` unit's stored content is
byte-identical to its leaf content `"x"`. -/
theorem roundTripContent_witness :
    (appSMLookup "acme/loaders/foo/bar.ts"
        (App stubImport "file:///src" acmeManifest emptyBSM tsTree)).map
      TsContent.content = some "x" :=
  roundTripContent stubImport "file:///src" acmeManifest emptyBSM tsTree (by decide)
    "acme/loaders/foo/bar.ts" "loaders" ⟨"foo/bar.ts", "x"⟩ (by decide)

/-- Claim C10: when two nodes of the same directory (or of the top-level node
sequence) share a name, flattening binds that name to the later node's value
only, so the earlier node's subtree is absent from the flattened tree — in
general, looking a name up in the flattened tree yields the flattening of
the *last* node with that name.  Concretely, with two top-level `loaders`
nodes (the earlier holding `a.ts` with content `"old"`, the later holding
`b.ts` with content `"new"`), the pass succeeds with no error or diagnostic,
walks only the later subtree's unit, and neither the manifest nor the source
map contains any trace of the earlier subtree. -/
theorem duplicateNameLastWins :
    (∀ (ns : NodeList) (name : String),
      fsLookup name (buildFs ns .nil) = (lastNamed name ns).map buildVal) ∧
    (appOk (App stubImport "file:///src" acmeManifest emptyBSM dupTree) = true ∧
      passUnits (buildFs dupTree .nil) = [("loaders", ⟨"b.ts", "new"⟩)] ∧
      appSMLookup "acme/loaders/a.ts"
        (App stubImport "file:///src" acmeManifest emptyBSM dupTree) = none ∧
      appBlockLookup "loaders" "acme/loaders/a.ts"
        (App stubImport "file:///src" acmeManifest emptyBSM dupTree) = none ∧
      appSMLookup "acme/loaders/b.ts"
        (App stubImport "file:///src" acmeManifest emptyBSM dupTree)
        = some ⟨"file:///src/loaders/b.ts", "new"⟩) := by
  constructor
  · intro ns name
    rw [fsLookup_buildFs]
    cases lastNamed name ns <;> simp [fsLookup]
  · exact ⟨by decide, by decide, by decide, by decide, by decide⟩

end Workspace
